import Mathlib

/-!
Verification of the music-notation layout engine
(`src/components/svg/SvgGrandStaff.tsx`, `src/components/svg/SvgChord.tsx`).

The definitions below are a shallow embedding of the layout code: the data
model (letters, accidentals, rhythmic values, notes, chords), the beam
grouper, the beam-line solver, the pitch/position mapper, the note-stem
geometry, the accidental tracker and the horizontal layout accumulator.
Numbers are modelled with `ℚ` (the source works with IEEE doubles but every
quantity involved here is an exact rational: pitches are integers, ratios are
small fractions).
-/

/-- The 7 natural note names. -/
inductive Letter
  | C | D | E | F | G | A | B
deriving DecidableEq, Repr

/-- Accidental symbols.  Absence of an accidental is `Option.none` wherever
the source uses `undefined`. -/
inductive Accidental
  | FLAT | NATURAL | SHARP
deriving DecidableEq, Repr

/-- Duration classes of notes. -/
inductive RhythmicValue
  | WHOLE | HALF | QUARTER | EIGHTH | SIXTEENTH
deriving DecidableEq, Repr

/-- Modelled from the spec: the numeric value of a `RhythmicValue`
(`datatypes/BasicTypes`, not in src).  The spec calls it "a numeric duration
class (WHOLE, HALF, QUARTER, EIGHTH, …) that also serves as a relative-width
multiplier", and `BASE_NOTE_GAP_RATIO` "determines gap between WHOLE notes",
so WHOLE = 1 and each finer value halves it. -/
def RhythmicValue.toQ : RhythmicValue → ℚ
  | .WHOLE => 1
  | .HALF => 1/2
  | .QUARTER => 1/4
  | .EIGHTH => 1/8
  | .SIXTEENTH => 1/16

/-- A notated spelling: letter plus accidental. -/
structure NoteLabel where
  letter : Letter
  accidental : Accidental
deriving DecidableEq, Repr

/-- A note: label, octave, absolute pitch (semitone number) and duration. -/
structure Note where
  label : NoteLabel
  octave : ℤ
  pitch : ℚ
  rhythmicValue : RhythmicValue
deriving DecidableEq, Repr

/-- The two clefs. -/
inductive Clef
  | TREBLE | BASS
deriving DecidableEq, Repr

/-- A chord: the simultaneous notes at one x-position (`LabeledChord` in the
source, `Note[]`). -/
abbrev Chord := List Note

/-- One measure of music: a chord sequence per clef (`LabeledMusic`). -/
structure LabeledMusic where
  trebleClef : List Chord
  bassClef : List Chord

/-- Modelled from the spec: `average` (`utilities/NumberUtils`, not in src);
the spec says "average pitch (mean of constituent note pitches)". -/
def average (xs : List ℚ) : ℚ := xs.sum / xs.length

/-- Modelled from the spec: `averageSlope` (`utilities/NumberUtils`, not in
src); the spec says "the average slope of consecutive average-pitch
differences across the group". -/
def averageSlope (xs : List ℚ) : ℚ :=
  average (List.zipWith (fun a b => b - a) xs xs.tail)

/-- Either positive or negative, this is how steep the beams are when they
are not horizontal (`BEAM_SLOPE = 0.20`). -/
def BEAM_SLOPE : ℚ := 20/100

/-- `getAveragePitch` from `SvgGrandStaff.tsx`. -/
def getAveragePitch (chord : Chord) : ℚ := average (chord.map Note.pitch)

/-- `isEighth` from `SvgGrandStaff.tsx`: whether the chord's first note is an
eighth note (`chord[0].rhythmicValue === RhythmicValue.EIGHTH`; an empty
chord's `chord[0]` is `undefined`, so the comparison is false). -/
def isEighth (chord : Chord) : Bool :=
  match chord with
  | [] => false
  | n :: _ => n.rhythmicValue = RhythmicValue.EIGHTH

/-- One iteration of the `for` loop of `groupBeamGroups`: pushes
`labeledChord` into the last beam group or starts a new group. -/
def beamStep (beamGroups : List (List Chord)) (labeledChord : Chord) :
    List (List Chord) :=
  match beamGroups.getLast? with
  | none =>
    -- Starting case: no group yet.
    beamGroups ++ [[labeledChord]]
  | some latestBeamGroup =>
    if latestBeamGroup.length = 0 then
      -- If our latest beam group is empty, nothing can rule the chord out.
      beamGroups.dropLast ++ [latestBeamGroup ++ [labeledChord]]
    else if 4 ≤ latestBeamGroup.length ∨ ¬ isEighth labeledChord
        ∨ ¬ isEighth latestBeamGroup.headI then
      -- Full group, or this (or the group's first) chord is not an eighth.
      beamGroups ++ [[labeledChord]]
    else
      -- Otherwise, check the pitch distance to every chord in the group.
      let currentChordPitch := getAveragePitch labeledChord
      let pitchDistances :=
        latestBeamGroup.map (fun chord => |getAveragePitch chord - currentChordPitch|)
      -- `Math.max(...pitchDistances)` over a non-empty list of absolute
      -- values; the 0 seed is exact because every entry is ≥ 0.
      if pitchDistances.foldl max 0 ≤ 12 then
        beamGroups.dropLast ++ [latestBeamGroup ++ [labeledChord]]
      else
        beamGroups ++ [[labeledChord]]

/-- `groupBeamGroups` from `SvgGrandStaff.tsx`: splits a measure into beam
groups. -/
def groupBeamGroups (measure : List Chord) : List (List Chord) :=
  measure.foldl beamStep []

/-- `TREBLE_CLEF.indexOf(letter)` for the array `['C','D','E','F','G','A','B']`
from `SvgChord.tsx`. -/
def letterIndex : Letter → ℤ
  | .C => 0
  | .D => 1
  | .E => 2
  | .F => 3
  | .G => 4
  | .A => 5
  | .B => 6

/-- The staff position of a note (`getPositionByNote` /
steps 1–3 of `getNoteY` in `SvgChord.tsx`): letter index, clef shift,
octave-borderline adjustment (Cb one octave up, B# one octave down), then 7
positions per octave relative to the clef's base octave. -/
def getPositionByNote (note : Note) (clef : Clef) : ℤ :=
  let baseClefOctave : ℤ := if clef = Clef.BASS then 2 else 4
  let basePosition : ℤ :=
    letterIndex note.label.letter + (if clef = Clef.BASS then -2 else 0)
  let octaveAdjustment : ℤ :=
    if note.label.letter = Letter.C ∧ note.label.accidental = Accidental.FLAT then 1
    else if note.label.letter = Letter.B ∧ note.label.accidental = Accidental.SHARP then -1
    else 0
  basePosition + (note.octave - baseClefOctave + octaveAdjustment) * 7

/-- The y coordinate of a staff position (`positionToY` / last line of
`getNoteY`): `(5*staffLineHeight) - (basePosition * staffLineHeight/2)`. -/
def positionToY (basePosition : ℤ) (staffLineHeight : ℚ) : ℚ :=
  (5 * staffLineHeight) - (basePosition * staffLineHeight / 2)

/-- `getNoteY` from `SvgChord.tsx`. -/
def getNoteY (labeledNote : Note) (clef : Clef) (staffLineHeight : ℚ) : ℚ :=
  positionToY (getPositionByNote labeledNote clef) staffLineHeight

/-- The beam's line: `isAbove` plus the affine map `getY x = slope * x +
firstY` (the source returns the closure `x => displayedSlope*x + firstY`). -/
structure BeamLine where
  slope : ℚ
  firstY : ℚ
  isAbove : Bool
deriving DecidableEq, Repr

/-- The y value of the beam at `x` (the closure returned by `getBeamLine`). -/
def BeamLine.getY (bl : BeamLine) (x : ℚ) : ℚ := bl.slope * x + bl.firstY

/-- `Math.min(...)`/`Math.max(...)` over a list: `none` encodes the
`±Infinity` result on an empty argument list. -/
def jsExtreme (useMin : Bool) : List ℚ → Option ℚ
  | [] => none
  | h :: t => some (t.foldl (if useMin then min else max) h)

/-- One iteration of the `for (let i ...)` loop of `getBeamLine`, folding the
"closest adjusted note y" accumulator (`none` is the `±Infinity` seed, which
every finite candidate beats). -/
def closestStep (shouldBeAbove : Bool) (clef : Clef) (displayedSlope noteWidth
    staffLineHeight : ℚ) (acc : Option ℚ) (i : ℕ) (chord : Chord) : Option ℚ :=
  let chordYVals := chord.map (fun note =>
    positionToY (getPositionByNote note clef) staffLineHeight)
  match jsExtreme shouldBeAbove chordYVals with
  | none => acc -- empty chord: its `±Infinity` extreme never wins
  | some closestYVal =>
    let adjustedChordY := closestYVal - displayedSlope * i * noteWidth
    match acc with
    | none => some adjustedChordY
    | some best =>
      if (if shouldBeAbove then adjustedChordY < best else best < adjustedChordY)
      then some adjustedChordY else some best

/-- The whole indexed loop of `getBeamLine` over the beam group. -/
def closestLoop (shouldBeAbove : Bool) (clef : Clef) (displayedSlope noteWidth
    staffLineHeight : ℚ) : ℕ → List Chord → Option ℚ → Option ℚ
  | _, [], acc => acc
  | i, chord :: rest, acc =>
    closestLoop shouldBeAbove clef displayedSlope noteWidth staffLineHeight
      (i + 1) rest
      (closestStep shouldBeAbove clef displayedSlope noteWidth staffLineHeight
        acc i chord)

/-- `getBeamLine` from `SvgGrandStaff.tsx`.  Returns `none` for groups of at
most one chord.  If every chord of the group is empty the source's
accumulator stays at `±Infinity`; we return `none` in that degenerate case
(the spec requires chords to be non-empty). -/
def getBeamLine (beamGroup : List Chord) (clef : Clef)
    (startingX noteWidth staffLineHeight : ℚ) : Option BeamLine :=
  if beamGroup.length ≤ 1 then none
  else
    -- Determine the displayed slope of the beam.
    let averagePitches := beamGroup.map (fun chord => average (chord.map Note.pitch))
    let actualSlope := averageSlope averagePitches
    let displayedSlope : ℚ :=
      if actualSlope = 0 then 0 else if 0 < actualSlope then BEAM_SLOPE else -BEAM_SLOPE
    -- If the average pitch is above the middle line, the beam goes above.
    let middlePitch : ℚ := if clef = Clef.TREBLE then 71 else 50
    let shouldBeAbove : Bool :=
      decide (averagePitches.foldl (fun delta pitch => delta + pitch - middlePitch) 0 < 0)
    -- Figure out the y location of the note closest to our beam.
    let closestNoteY :=
      closestLoop shouldBeAbove clef displayedSlope noteWidth staffLineHeight
        0 beamGroup none
    closestNoteY.map (fun cy =>
      { slope := displayedSlope
        firstY := cy - displayedSlope * startingX
          + (if shouldBeAbove then -2 else 2) * staffLineHeight
        isAbove := shouldBeAbove })

/-- Relative to the staffLineHeight (`SvgChord.tsx`). -/
def NOTE_WIDTH_RATIO : ℚ := 7/12

/-- Relative to the staffLineHeight (`SvgChord.tsx`). -/
def NOTE_HEIGHT_RATIO : ℚ := 5/12

/-- The geometry of a note-head ellipse produced by `createNoteHead`:
center, radii and whether the head is filled. -/
structure NoteHead where
  cx : ℚ
  cy : ℚ
  rx : ℚ
  ry : ℚ
  filled : Bool
deriving DecidableEq, Repr

/-- `createNoteHead` from `SvgChord.tsx` (geometry only). -/
def createNoteHead (x y : ℚ) (staffLineHeight : ℚ) (note : Note) : NoteHead :=
  { cx := x
    cy := y
    rx := NOTE_WIDTH_RATIO * staffLineHeight
    ry := NOTE_HEIGHT_RATIO * staffLineHeight
    filled := ¬ (note.rhythmicValue = RhythmicValue.WHOLE
                 ∨ note.rhythmicValue = RhythmicValue.HALF) }

/-- The geometry of a stem `<line>`: vertical segment at `x` from `y1` to
`y2`. -/
structure Stem where
  x : ℚ
  y1 : ℚ
  y2 : ℚ
deriving DecidableEq, Repr

/-- `createNoteStem` from `SvgChord.tsx`.  `stemTo = none` is the source's
`undefined` (note that `stemTo ?? …` and `stemTo !== undefined` treat `0` as
a present value, as `Option.some 0` does here). -/
def createNoteStem (noteX noteY : ℚ) (stemTo : Option ℚ)
    (staffLineHeight : ℚ) : Stem :=
  let pointsDown : Bool :=
    match stemTo with
    | some t => decide (noteY < t)
    | none => decide (noteY < 2 * staffLineHeight)
  let stemX := if pointsDown then noteX - NOTE_WIDTH_RATIO * staffLineHeight
               else noteX + NOTE_WIDTH_RATIO * staffLineHeight
  let stemY := noteY
  let stemY2 :=
    match stemTo with
    | some t => t
    | none => if pointsDown then stemY + 3 * staffLineHeight
              else stemY - 3 * staffLineHeight
  { x := stemX, y1 := stemY, y2 := stemY2 }

/-- The stems pushed for one note by the `SvgChord` loop: none for a WHOLE
note, exactly one otherwise. -/
def noteStemElems (x : ℚ) (note : Note) (clef : Clef) (stemTo : Option ℚ)
    (staffLineHeight : ℚ) : List Stem :=
  if note.rhythmicValue = RhythmicValue.WHOLE then []
  else [createNoteStem x (getNoteY note clef staffLineHeight) stemTo staffLineHeight]

/-- Map of a letter to its accidental (`Record<Letter, Accidental>`; a letter
the object does not hold maps to `none`, the source's `undefined`). -/
abbrev AccMap := Letter → Option Accidental

/-- `getDisplayedAccidentals` from `SvgGrandStaff.tsx`: the reduce that
collects, for a chord, the letters whose accidental differs from the current
state (later notes overwrite earlier ones at the same letter). -/
def getDisplayedAccidentals (noteGroup : List Note) (accidentals : AccMap) : AccMap :=
  noteGroup.foldl (fun obj note =>
      if accidentals note.label.letter = some note.label.accidental then obj
      else fun l => if l = note.label.letter then some note.label.accidental else obj l)
    (fun _ => none)

/-- The object spread `{...accidentals, ...chordAccidentals}`: keys of the
overlay win. -/
def mergeAcc (base overlay : AccMap) : AccMap :=
  fun l => match overlay l with
    | some a => some a
    | none => base l

/-- The per-chord state update of `createClefNotes`
(`accidentals = {...accidentals, ...getDisplayedAccidentals(noteGroup, accidentals)}`). -/
def chordStateUpdate (noteGroup : List Note) (accidentals : AccMap) : AccMap :=
  mergeAcc accidentals (getDisplayedAccidentals noteGroup accidentals)

/-- Modelled from the spec: `NoteLabel.getDisplayedAccidental`
(`datatypes/ComplexTypes`, not in src), used by `SvgChord` to decide the
accidental glyph of one note; §4.2 — "a note's accidental must be displayed
only when it differs from the currently-in-force accidental for that
letter". -/
def getDisplayedAccidental (label : NoteLabel) (accidentals : AccMap) :
    Option Accidental :=
  if accidentals label.letter = some label.accidental then none
  else some label.accidental

/-- The accidentals displayed for the notes of one chord, all decided against
the same (pre-chord) state, as `SvgChord` receives one `accidentals` map for
the whole chord. -/
def chordDisplayed (noteGroup : List Note) (accidentals : AccMap) :
    List (Option Accidental) :=
  noteGroup.map (fun n => getDisplayedAccidental n.label accidentals)

/-- The accidental thread of `createClefNotes` over one measure: each chord's
displayed accidentals are computed from the state before the chord, then the
state is batch-updated after the whole chord.  (The source iterates the
chords through `groupBeamGroups`, which preserves their order and
multiplicity; the accidental state never depends on the grouping.) -/
def runMeasureAccidentals : List Chord → AccMap →
    List (List (Option Accidental)) × AccMap
  | [], state => ([], state)
  | noteGroup :: rest, state =>
    let displayed := chordDisplayed noteGroup state
    let next := runMeasureAccidentals rest (chordStateUpdate noteGroup state)
    (displayed :: next.1, next.2)

/-- These need to add up to 100 (`SvgGrandStaff.tsx`). -/
def STAFF_RATIO : ℚ := 20/100

/-- Relative to the overall grand staff height; determines the gap between
WHOLE notes. -/
def BASE_NOTE_GAP_RATIO : ℚ := 5 * STAFF_RATIO

/-- The x advance of one chord in `createClefNotes`
(`currentX += BASE_NOTE_GAP_RATIO * sizes.staffHeight *
noteGroup[0].rhythmicValue`).  `noteGroup[0]` of an empty chord is undefined
in the source (the spec excludes empty chords); we use 0 there. -/
def chordAdvance (staffHeight x : ℚ) (noteGroup : Chord) : ℚ :=
  x + BASE_NOTE_GAP_RATIO * staffHeight *
    (match noteGroup.head? with
     | some n => n.rhythmicValue.toQ
     | none => 0)

/-- The final x cursor of `createClefNotes`: the chords are traversed through
their beam groups, each advancing the cursor. -/
def createClefNotesX (staffHeight : ℚ) (measureClef : List Chord)
    (currentX : ℚ) : ℚ :=
  (groupBeamGroups measureClef).foldl
    (fun x beamGroup => beamGroup.foldl (chordAdvance staffHeight) x) currentX

/-- One measure of the `music.forEach` loop of `GrandStaff`: advance both
cursors, place the bar line at their max, then reset both cursors to the bar
position plus 50. -/
def grandStaffStep (staffHeight : ℚ) (st : ℚ × ℚ × List ℚ)
    (measure : LabeledMusic) : ℚ × ℚ × List ℚ :=
  let trebleX := createClefNotesX staffHeight measure.trebleClef st.1
  let bassX := createClefNotesX staffHeight measure.bassClef st.2.1
  let barX := max trebleX bassX
  (barX + 50, barX + 50, st.2.2 ++ [barX])

/-- The cursor/bar-line state of `GrandStaff` after laying out `music`:
`(trebleX, bassX, bar line xs)`, starting from `trebleX = bassX = 40`. -/
def grandStaffLayout (staffHeight : ℚ) (music : List LabeledMusic) :
    ℚ × ℚ × List ℚ :=
  music.foldl (grandStaffStep staffHeight) (40, 40, [])

/-- The invariant maintained for every beam group: non-empty, at most 4
chords, all eighths as soon as there are two, and pairwise average pitches
within an octave. -/
def GoodGroup (g : List Chord) : Prop :=
  g ≠ [] ∧ g.length ≤ 4 ∧
  (2 ≤ g.length → ∀ c ∈ g, isEighth c = true) ∧
  (∀ c₁ ∈ g, ∀ c₂ ∈ g, |getAveragePitch c₁ - getAveragePitch c₂| ≤ 12)

def GoodGroups (gs : List (List Chord)) : Prop := ∀ g ∈ gs, GoodGroup g

/-- A one-note eighth chord used in concrete examples: pitch `p`, spelled
C-natural in octave 4 (the grouper only reads pitch and rhythmic value). -/
def en (p : ℚ) : Note :=
  ⟨⟨Letter.C, Accidental.NATURAL⟩, 4, p, RhythmicValue.EIGHTH⟩

/-- (C, FLAT) in octave 4 (the pitch field is the enharmonic B3 = 59). -/
def cb4 : Note := ⟨⟨Letter.C, Accidental.FLAT⟩, 4, 59, RhythmicValue.QUARTER⟩

/-- (B, NATURAL) in octave 3. -/
def bn3 : Note := ⟨⟨Letter.B, Accidental.NATURAL⟩, 3, 59, RhythmicValue.QUARTER⟩

/-- (B, SHARP) in octave 3 (the pitch field is the enharmonic C4 = 60). -/
def bs3 : Note := ⟨⟨Letter.B, Accidental.SHARP⟩, 3, 60, RhythmicValue.QUARTER⟩

/-- (C, NATURAL) in octave 4. -/
def cn4 : Note := ⟨⟨Letter.C, Accidental.NATURAL⟩, 4, 60, RhythmicValue.QUARTER⟩

/-- (B, NATURAL) in octave 4. -/
def bn4 : Note := ⟨⟨Letter.B, Accidental.NATURAL⟩, 4, 71, RhythmicValue.QUARTER⟩

/-- (C, NATURAL) in octave 3. -/
def cn3 : Note := ⟨⟨Letter.C, Accidental.NATURAL⟩, 3, 48, RhythmicValue.QUARTER⟩

/-- A WHOLE note used in concrete examples. -/
def wholeNote : Note := ⟨⟨Letter.C, Accidental.NATURAL⟩, 4, 60, RhythmicValue.WHOLE⟩

/-- The accidental-state map a key signature containing F-sharp resets to at
the start of each measure. -/
def keyFSharp : AccMap :=
  fun l => if l = Letter.F then some Accidental.SHARP else none

/-- The note F#4. -/
def fs4 : Note := ⟨⟨Letter.F, Accidental.SHARP⟩, 4, 66, RhythmicValue.QUARTER⟩

/-- The note F4, labeled NATURAL. -/
def f4 : Note := ⟨⟨Letter.F, Accidental.NATURAL⟩, 4, 65, RhythmicValue.QUARTER⟩

/-- The last note of the group with letter `l` whose accidental differs from
the (pre-chord) state, scanned from the right. -/
def lastDiffering (state : AccMap) (l : Letter) : List Note → Option Accidental
  | [] => none
  | n :: t =>
    match lastDiffering state l t with
    | some a => some a
    | none =>
      if n.label.letter = l ∧ ¬ state l = some n.label.accidental then
        some n.label.accidental
      else none

/-- The displayed slope computed by `getBeamLine` (its `displayedSlope`
local). -/
def dSlope (beamGroup : List Chord) : ℚ :=
  let actualSlope :=
    averageSlope (beamGroup.map (fun chord => average (chord.map Note.pitch)))
  if actualSlope = 0 then 0
  else if 0 < actualSlope then BEAM_SLOPE else -BEAM_SLOPE

/-- The placement side computed by `getBeamLine` (its `shouldBeAbove`
local). -/
def sAbove (beamGroup : List Chord) (clef : Clef) : Bool :=
  decide ((beamGroup.map (fun chord => average (chord.map Note.pitch))).foldl
    (fun delta pitch => delta + pitch - (if clef = Clef.TREBLE then 71 else 50))
    0 < 0)

/-- One step of the closest-y fold on plain values. -/
def optStep (useMin : Bool) (acc : Option ℚ) (y : ℚ) : Option ℚ :=
  match acc with
  | none => some y
  | some best =>
    if (if useMin then y < best else best < y) then some y else some best

/-- The minimum (`useMin = true`) or maximum of a list, 0 on the empty
list. -/
def extremeD (useMin : Bool) : List ℚ → ℚ
  | [] => 0
  | h :: t => t.foldl (if useMin then min else max) h

/-- Following the spec's words (§4.5 step 4): for each chord index `i`, the
y of the chord's closest note head (min if the beam is above, max if below),
adjusted by subtracting `displayedSlope * i * noteWidth`. -/
def adjustedHeadYs (useMin : Bool) (clef : Clef)
    (slope noteWidth staffLineHeight : ℚ) : ℕ → List Chord → List ℚ
  | _, [] => []
  | i, chord :: rest =>
    (extremeD useMin (chord.map (fun note =>
        positionToY (getPositionByNote note clef) staffLineHeight))
      - slope * i * noteWidth)
      :: adjustedHeadYs useMin clef slope noteWidth staffLineHeight (i + 1) rest

-- ===================
-- Lemmas and theorems
-- -------------------

theorem foldl_max_le_iff (l : List ℚ) (a b : ℚ) :
    l.foldl max a ≤ b ↔ a ≤ b ∧ ∀ x ∈ l, x ≤ b := by
  induction l generalizing a with
  | nil => simp
  | cons h t ih =>
    rw [List.foldl_cons, ih]
    simp only [max_le_iff, List.forall_mem_cons]
    tauto

theorem beamStep_nil (c : Chord) : beamStep [] c = [[c]] := rfl

/-- `beamStep` on a list ending in group `g`, with the `getLast?`/`dropLast`
bookkeeping discharged. -/
theorem beamStep_concat (gs : List (List Chord)) (g : List Chord) (c : Chord) :
    beamStep (gs ++ [g]) c =
      if g.length = 0 then gs ++ [g ++ [c]]
      else if 4 ≤ g.length ∨ ¬ isEighth c ∨ ¬ isEighth g.headI then
        (gs ++ [g]) ++ [[c]]
      else if (g.map (fun chord =>
          |getAveragePitch chord - getAveragePitch c|)).foldl max 0 ≤ 12 then
        gs ++ [g ++ [c]]
      else (gs ++ [g]) ++ [[c]] := by
  simp only [beamStep, List.getLast?_concat, List.dropLast_concat]

/-- The chord joins the last group when that group is non-empty, not full,
both are eighths, and the chord is within an octave of every group member. -/
theorem beamStep_append_of (gs : List (List Chord)) (g : List Chord) (c : Chord)
    (hne : g ≠ []) (hlen : g.length < 4) (hc : isEighth c = true)
    (hh : isEighth g.headI = true)
    (hclose : ∀ m ∈ g, |getAveragePitch m - getAveragePitch c| ≤ 12) :
    beamStep (gs ++ [g]) c = gs ++ [g ++ [c]] := by
  rw [beamStep_concat]
  rw [if_neg (by simpa [List.length_eq_zero] using hne)]
  rw [if_neg (by push_neg; exact ⟨by omega, hc, hh⟩)]
  rw [if_pos]
  rw [foldl_max_le_iff]
  refine ⟨by norm_num, ?_⟩
  intro x hx
  rcases List.mem_map.1 hx with ⟨m, hm, rfl⟩
  exact hclose m hm

/-- The chord starts a new group when the last group is full. -/
theorem beamStep_newgroup_of_full (gs : List (List Chord)) (g : List Chord)
    (c : Chord) (hne : g ≠ []) (hfull : 4 ≤ g.length) :
    beamStep (gs ++ [g]) c = (gs ++ [g]) ++ [[c]] := by
  rw [beamStep_concat]
  rw [if_neg (by simpa [List.length_eq_zero] using hne)]
  rw [if_pos (Or.inl hfull)]

/-- The chord starts a new group when it is too far from some member of the
last group (whatever the other conditions say). -/
theorem beamStep_newgroup_of_far (gs : List (List Chord)) (g : List Chord)
    (c : Chord) (hne : g ≠ []) (m : Chord) (hm : m ∈ g)
    (hfar : ¬ |getAveragePitch m - getAveragePitch c| ≤ 12) :
    beamStep (gs ++ [g]) c = (gs ++ [g]) ++ [[c]] := by
  rw [beamStep_concat, if_neg (by simpa [List.length_eq_zero] using hne)]
  by_cases hfull : 4 ≤ g.length ∨ ¬ isEighth c ∨ ¬ isEighth g.headI
  · rw [if_pos hfull]
  · rw [if_neg hfull, if_neg]
    rw [foldl_max_le_iff]
    push_neg at hfar ⊢
    intro _
    exact ⟨_, List.mem_map_of_mem _ hm, hfar⟩

theorem goodGroup_singleton (c : Chord) : GoodGroup [c] := by
  refine ⟨by simp, by simp, by simp, ?_⟩
  intro c₁ h₁ c₂ h₂
  simp only [List.mem_singleton] at h₁ h₂
  subst h₁; subst h₂; simp

theorem beamStep_good (gs : List (List Chord)) (c : Chord)
    (h : GoodGroups gs) : GoodGroups (beamStep gs c) := by
  rcases List.eq_nil_or_concat gs with rfl | ⟨gs', g, rfl⟩
  · rw [beamStep_nil]
    intro g hg
    simp only [List.mem_singleton] at hg
    subst hg
    exact goodGroup_singleton c
  · rw [List.concat_eq_append]
    have hgood : GoodGroup g := h g (by simp)
    have hlen0 : ¬ g.length = 0 := by simpa [List.length_eq_zero] using hgood.1
    rw [beamStep_concat, if_neg hlen0]
    by_cases hfull : 4 ≤ g.length ∨ ¬ isEighth c ∨ ¬ isEighth g.headI
    · rw [if_pos hfull]
      intro g' hg'
      rcases List.mem_append.1 hg' with hin | hin
      · exact h g' (by rw [List.concat_eq_append]; exact hin)
      · simp only [List.mem_singleton] at hin
        subst hin
        exact goodGroup_singleton c
    · rw [if_neg hfull]
      push_neg at hfull
      obtain ⟨hlt4, hc8, hh8⟩ := hfull
      -- all members of g are eighths: one member means the head, two or
      -- more means the invariant already says so
      have hall8 : ∀ x ∈ g, isEighth x = true := by
        match g, hgood, hh8 with
        | g0 :: gt, hgood, hh8 =>
          cases gt with
          | nil =>
            intro x hx
            simp only [List.mem_singleton] at hx
            subst hx
            simpa [List.headI] using hh8
          | cons g1 gt' =>
            exact hgood.2.2.1 (by simp)
      by_cases hclose : (g.map (fun chord =>
          |getAveragePitch chord - getAveragePitch c|)).foldl max 0 ≤ 12
      · rw [if_pos hclose]
        rw [foldl_max_le_iff] at hclose
        have hdist : ∀ m ∈ g, |getAveragePitch m - getAveragePitch c| ≤ 12 := by
          intro m hm
          exact hclose.2 _ (List.mem_map_of_mem _ hm)
        intro g' hg'
        rcases List.mem_append.1 hg' with hin | hin
        · exact h g' (by rw [List.concat_eq_append]; exact List.mem_append_left _ hin)
        · simp only [List.mem_singleton] at hin
          subst hin
          refine ⟨by simp, by simp; omega, ?_, ?_⟩
          · intro _ x hx
            rcases List.mem_append.1 hx with hx | hx
            · exact hall8 x hx
            · simp only [List.mem_singleton] at hx
              subst hx; exact hc8
          · intro c₁ h₁ c₂ h₂
            rcases List.mem_append.1 h₁ with h₁g | h₁c
            · rcases List.mem_append.1 h₂ with h₂g | h₂c
              · exact hgood.2.2.2 c₁ h₁g c₂ h₂g
              · have e₂ : c₂ = c := by simpa using h₂c
                rw [e₂]
                exact hdist c₁ h₁g
            · have e₁ : c₁ = c := by simpa using h₁c
              rw [e₁]
              rcases List.mem_append.1 h₂ with h₂g | h₂c
              · rw [abs_sub_comm]
                exact hdist c₂ h₂g
              · have e₂ : c₂ = c := by simpa using h₂c
                rw [e₂]
                simp
      · rw [if_neg hclose]
        intro g' hg'
        rcases List.mem_append.1 hg' with hin | hin
        · exact h g' (by rw [List.concat_eq_append]; exact hin)
        · simp only [List.mem_singleton] at hin
          subst hin
          exact goodGroup_singleton c

theorem groupBeamGroups_good (measure : List Chord) :
    GoodGroups (groupBeamGroups measure) := by
  have main : ∀ gs, GoodGroups gs → GoodGroups (measure.foldl beamStep gs) := by
    induction measure with
    | nil => intro gs h; exact h
    | cons c t ih =>
      intro gs h
      exact ih _ (beamStep_good _ _ h)
  exact main [] (by intro g hg; simp at hg)

theorem beamStep_flatten (gs : List (List Chord)) (c : Chord) :
    (beamStep gs c).flatten = gs.flatten ++ [c] := by
  rcases List.eq_nil_or_concat gs with rfl | ⟨gs', g, rfl⟩
  · rw [beamStep_nil]; simp
  · rw [List.concat_eq_append, beamStep_concat]
    split_ifs <;> simp

theorem groupBeamGroups_flatten (measure : List Chord) :
    (groupBeamGroups measure).flatten = measure := by
  have main : ∀ gs, ((measure.foldl beamStep gs).flatten : List Chord)
      = gs.flatten ++ measure := by
    induction measure with
    | nil => intro gs; simp
    | cons c t ih =>
      intro gs
      rw [List.foldl_cons, ih, beamStep_flatten]
      simp
  simpa using main []

theorem getAveragePitch_single (n : Note) : getAveragePitch [n] = n.pitch := by
  simp [getAveragePitch, average]

theorem groupBeamGroups_60_80 :
    groupBeamGroups [[en 60], [en 80]] = [[[en 60]], [[en 80]]] := by
  have t1 : beamStep [[[en 60]]] [en 80] = [[[en 60]], [[en 80]]] := by
    have h := beamStep_newgroup_of_far [] [[en 60]] [en 80] (by simp) [en 60]
      (by simp) (by norm_num [getAveragePitch_single, en, abs_le])
    simpa using h
  simp only [groupBeamGroups, List.foldl_cons, List.foldl_nil, beamStep_nil, t1]

theorem groupBeamGroups_60_61 :
    groupBeamGroups [[en 60], [en 61]] = [[[en 60], [en 61]]] := by
  have t1 : beamStep [[[en 60]]] [en 61] = [[[en 60], [en 61]]] := by
    have h := beamStep_append_of [] [[en 60]] [en 61] (by simp) (by simp) rfl rfl
      (by intro m hm
          simp only [List.mem_singleton] at hm
          subst hm
          norm_num [getAveragePitch_single, en, abs_le])
    simpa using h
  simp only [groupBeamGroups, List.foldl_cons, List.foldl_nil, beamStep_nil, t1]

/-- **C10**: for every input list of chords, `groupBeamGroups` returns an
order-preserving partition of its input — concatenating the groups in order
yields exactly the input list, every group is non-empty, and the empty input
yields the empty list of groups. -/
theorem c10_groupBeamGroups_partition :
    (∀ measure : List Chord, (groupBeamGroups measure).flatten = measure) ∧
    (∀ measure : List Chord, ∀ g ∈ groupBeamGroups measure, g ≠ []) ∧
    groupBeamGroups ([] : List Chord) = [] := by
  refine ⟨groupBeamGroups_flatten, ?_, rfl⟩
  intro measure g hg
  exact (groupBeamGroups_good measure g hg).1

theorem c10_witness :
    (groupBeamGroups [[en 60], [en 80]]).flatten = [[en 60], [en 80]] ∧
    ([[en 60]] : List Chord) ≠ [] :=
  ⟨c10_groupBeamGroups_partition.1 [[en 60], [en 80]],
   c10_groupBeamGroups_partition.2.1 [[en 60], [en 80]] [[en 60]]
     (by rw [groupBeamGroups_60_80]; simp)⟩

/-- **C7**: a chord is appended to the current beam group only if its average
pitch is within 12 semitones of every chord already in the group (so the
chords of every produced group have pairwise average-pitch distance at most
12), and the measure of three eighth chords with average pitches
[60, 80, 61] yields three singleton groups. -/
theorem c7_group_pitch_proximity :
    (∀ measure : List Chord, ∀ g ∈ groupBeamGroups measure,
        ∀ c₁ ∈ g, ∀ c₂ ∈ g, |getAveragePitch c₁ - getAveragePitch c₂| ≤ 12) ∧
    groupBeamGroups [[en 60], [en 80], [en 61]]
      = [[[en 60]], [[en 80]], [[en 61]]] := by
  constructor
  · intro measure g hg
    exact (groupBeamGroups_good measure g hg).2.2.2
  · have t1 : beamStep [[[en 60]]] [en 80] = [[[en 60]], [[en 80]]] := by
      have h := beamStep_newgroup_of_far [] [[en 60]] [en 80] (by simp) [en 60]
        (by simp) (by norm_num [getAveragePitch_single, en, abs_le])
      simpa using h
    have t2 : beamStep [[[en 60]], [[en 80]]] [en 61]
        = [[[en 60]], [[en 80]], [[en 61]]] := by
      have h := beamStep_newgroup_of_far [[[en 60]]] [[en 80]] [en 61] (by simp)
        [en 80] (by simp) (by norm_num [getAveragePitch_single, en, abs_le])
      simpa using h
    simp only [groupBeamGroups, List.foldl_cons, List.foldl_nil, beamStep_nil,
      t1, t2]

theorem c7_witness :
    |getAveragePitch [en 60] - getAveragePitch [en 61]| ≤ 12 :=
  c7_group_pitch_proximity.1 [[en 60], [en 61]] [[en 60], [en 61]]
    (by rw [groupBeamGroups_60_61]; simp)
    [en 60] (by simp) [en 61] (by simp)

/-- **C1**: every beam group has 1–4 chords; a group with more than one chord
consists only of EIGHTH chords; `getBeamLine` returns no beam line for a
group with at most one chord; and every measure of 5 consecutive EIGHTH
chords whose average pitches all lie within 12 semitones of each other
yields one group of 4 chords followed by one group of 1 chord. -/
theorem c1_beam_group_shape :
    (∀ measure : List Chord, ∀ g ∈ groupBeamGroups measure,
        1 ≤ g.length ∧ g.length ≤ 4) ∧
    (∀ measure : List Chord, ∀ g ∈ groupBeamGroups measure,
        1 < g.length → ∀ c ∈ g, isEighth c = true) ∧
    (∀ (beamGroup : List Chord) (clef : Clef)
        (startingX noteWidth staffLineHeight : ℚ), beamGroup.length ≤ 1 →
        getBeamLine beamGroup clef startingX noteWidth staffLineHeight = none) ∧
    (∀ c0 c1 c2 c3 c4 : Chord,
        (∀ c ∈ [c0, c1, c2, c3, c4], isEighth c = true) →
        (∀ c ∈ [c0, c1, c2, c3, c4], ∀ c' ∈ [c0, c1, c2, c3, c4],
            |getAveragePitch c - getAveragePitch c'| ≤ 12) →
        groupBeamGroups [c0, c1, c2, c3, c4] = [[c0, c1, c2, c3], [c4]]) := by
  refine ⟨?_, ?_, ?_, ?_⟩
  · intro measure g hg
    have hgood := groupBeamGroups_good measure g hg
    exact ⟨List.length_pos.2 hgood.1, hgood.2.1⟩
  · intro measure g hg hlen c hc
    exact (groupBeamGroups_good measure g hg).2.2.1 hlen c hc
  · intro beamGroup clef startingX noteWidth staffLineHeight h
    simp [getBeamLine, if_pos h]
  · intro c0 c1 c2 c3 c4 h8 hd
    have s1 : beamStep [[c0]] c1 = [[c0, c1]] := by
      have h := beamStep_append_of [] [c0] c1 (by simp) (by simp)
        (h8 _ (by simp)) (h8 _ (by simp))
        (by intro m hm
            simp only [List.mem_singleton] at hm
            subst hm
            exact hd _ (by simp) _ (by simp))
      simpa using h
    have s2 : beamStep [[c0, c1]] c2 = [[c0, c1, c2]] := by
      have h := beamStep_append_of [] [c0, c1] c2 (by simp) (by simp)
        (h8 _ (by simp)) (h8 _ (by simp))
        (by intro m hm
            simp at hm
            rcases hm with rfl | rfl
            · exact hd _ (by simp) _ (by simp)
            · exact hd _ (by simp) _ (by simp))
      simpa using h
    have s3 : beamStep [[c0, c1, c2]] c3 = [[c0, c1, c2, c3]] := by
      have h := beamStep_append_of [] [c0, c1, c2] c3 (by simp) (by simp)
        (h8 _ (by simp)) (h8 _ (by simp))
        (by intro m hm
            simp at hm
            rcases hm with rfl | rfl | rfl
            · exact hd _ (by simp) _ (by simp)
            · exact hd _ (by simp) _ (by simp)
            · exact hd _ (by simp) _ (by simp))
      simpa using h
    have s4 : beamStep [[c0, c1, c2, c3]] c4 = [[c0, c1, c2, c3], [c4]] := by
      have h := beamStep_newgroup_of_full [] [c0, c1, c2, c3] c4 (by simp) (by simp)
      simpa using h
    simp only [groupBeamGroups, List.foldl_cons, List.foldl_nil, beamStep_nil]
    rw [s1, s2, s3, s4]

theorem c1_witness :
    groupBeamGroups [[en 60], [en 61], [en 62], [en 63], [en 64]]
      = [[[en 60], [en 61], [en 62], [en 63]], [[en 64]]] ∧
    getBeamLine [[en 60]] Clef.TREBLE 0 1 1 = none :=
  ⟨c1_beam_group_shape.2.2.2 [en 60] [en 61] [en 62] [en 63] [en 64]
      (by intro c hc
          simp at hc
          rcases hc with rfl | rfl | rfl | rfl | rfl <;> rfl)
      (by intro c hc c' hc'
          simp at hc hc'
          rcases hc with rfl | rfl | rfl | rfl | rfl <;>
            rcases hc' with rfl | rfl | rfl | rfl | rfl <;>
            norm_num [getAveragePitch_single, en, abs_le]),
   c1_beam_group_shape.2.2.1 [[en 60]] Clef.TREBLE 0 1 1 (by simp)⟩

/-- **C5 counterexample**: the claim fails on the code at every clef.  At the
treble clef the position of (C, FLAT, octave 4) is 7 while the position of
(B, NATURAL, octave 3) + 1 is 0, and the position of (B, SHARP, octave 3) is
−8 while the position of (C, NATURAL, octave 4) − 1 is −1 (the bass clef
shifts all four by the same constant).  The octave-borderline adjustment
moves Cb/B# by a whole octave, so the claimed identities only hold when both
spellings carry the same stored octave. -/
theorem c5_counterexample :
    ¬ ((getPositionByNote cb4 Clef.TREBLE = getPositionByNote bn3 Clef.TREBLE + 1 ∧
        getPositionByNote bs3 Clef.TREBLE = getPositionByNote cn4 Clef.TREBLE - 1) ∨
       (getPositionByNote cb4 Clef.BASS = getPositionByNote bn3 Clef.BASS + 1 ∧
        getPositionByNote bs3 Clef.BASS = getPositionByNote cn4 Clef.BASS - 1)) := by
  decide

/-- **C5 (amended)**: for any fixed clef, the staff position of (C, FLAT) at
octave 4 equals the staff position of (B, NATURAL) at the same octave 4 plus
1, and the staff position of (B, SHARP) at octave 3 equals the staff
position of (C, NATURAL) at the same octave 3 minus 1: the Cb/B# octave
adjustments place them adjacent to the enharmonic neighbour carrying the
same stored octave. -/
theorem c5_enharmonic_adjacency (clef : Clef) :
    getPositionByNote cb4 clef = getPositionByNote bn4 clef + 1 ∧
    getPositionByNote bs3 clef = getPositionByNote cn3 clef - 1 := by
  cases clef <;> exact ⟨by decide, by decide⟩

/-- A helper evaluation of `createNoteStem` in the unbeamed case
(`stemTo = undefined`). -/
theorem createNoteStem_none (noteX noteY staffLineHeight : ℚ) :
    createNoteStem noteX noteY none staffLineHeight =
      if noteY < 2 * staffLineHeight then
        ⟨noteX - NOTE_WIDTH_RATIO * staffLineHeight, noteY,
          noteY + 3 * staffLineHeight⟩
      else
        ⟨noteX + NOTE_WIDTH_RATIO * staffLineHeight, noteY,
          noteY - 3 * staffLineHeight⟩ := by
  by_cases h : noteY < 2 * staffLineHeight <;> simp [createNoteStem, h]

/-- **C6**: a WHOLE note renders no stem and every other note renders exactly
one; without an explicit stem endpoint, a note with vertical coordinate less
than `2 * staffLineHeight` (at or above the middle line) gets a downward
stem on the head's left side of length 3 staff-line-heights, any other note
an upward stem on the right side of length 3 staff-line-heights, and the
stem's horizontal offset from the head's center is the note-head half-width
`rx`. -/
theorem c6_stem_geometry (x : ℚ) (note : Note) (clef : Clef)
    (staffLineHeight : ℚ) (hslh : 0 ≤ staffLineHeight) :
    (note.rhythmicValue = RhythmicValue.WHOLE →
      noteStemElems x note clef none staffLineHeight = []) ∧
    (note.rhythmicValue ≠ RhythmicValue.WHOLE →
      ∃ s : Stem, noteStemElems x note clef none staffLineHeight = [s] ∧
        s.y1 = getNoteY note clef staffLineHeight ∧
        (if getNoteY note clef staffLineHeight < 2 * staffLineHeight then
            s.x = x - NOTE_WIDTH_RATIO * staffLineHeight ∧
            s.y2 = s.y1 + 3 * staffLineHeight
          else
            s.x = x + NOTE_WIDTH_RATIO * staffLineHeight ∧
            s.y2 = s.y1 - 3 * staffLineHeight) ∧
        |s.x - x| = (createNoteHead x (getNoteY note clef staffLineHeight)
            staffLineHeight note).rx) := by
  have hr : (0:ℚ) ≤ NOTE_WIDTH_RATIO * staffLineHeight :=
    mul_nonneg (by norm_num [ NOTE_WIDTH_RATIO]) hslh
  constructor
  · intro h
    simp [noteStemElems, h]
  · intro h
    refine ⟨createNoteStem x (getNoteY note clef staffLineHeight) none
        staffLineHeight, by simp [noteStemElems, h], ?_⟩
    rw [createNoteStem_none]
    by_cases hy : getNoteY note clef staffLineHeight < 2 * staffLineHeight
    · rw [if_pos hy, if_pos hy]
      refine ⟨rfl, ⟨rfl, rfl⟩, ?_⟩
      rw [show x - NOTE_WIDTH_RATIO * staffLineHeight - x
            = -( NOTE_WIDTH_RATIO * staffLineHeight) by ring,
        abs_neg, abs_of_nonneg hr]
      rfl
    · rw [if_neg hy, if_neg hy]
      refine ⟨rfl, ⟨rfl, rfl⟩, ?_⟩
      rw [show x + NOTE_WIDTH_RATIO * staffLineHeight - x
            = NOTE_WIDTH_RATIO * staffLineHeight by ring,
        abs_of_nonneg hr]
      rfl

theorem c6_witness :
    noteStemElems 0 wholeNote Clef.TREBLE none 2 = [] ∧
    noteStemElems 0 (en 60) Clef.TREBLE none 2 ≠ [] := by
  constructor
  · exact (c6_stem_geometry 0 wholeNote Clef.TREBLE 2 (by norm_num)).1 rfl
  · obtain ⟨s, hs, -, -, -⟩ :=
      (c6_stem_geometry 0 (en 60) Clef.TREBLE 2 (by norm_num)).2 (by decide)
    rw [hs]
    simp

/-- **C4**: with the state reset to a key containing F#, the sequence
[F#4, F4, F4] yields displayed accidentals [none, NATURAL, none]: the first
note matches the key state and is hidden, the second differs and shows
NATURAL, the third matches the updated state and is hidden. -/
theorem c4_fsharp_sequence :
    (runMeasureAccidentals [[fs4], [f4], [f4]] keyFSharp).1
      = [[none], [some Accidental.NATURAL], [none]] := rfl

theorem getDisplayedAccidentals_aux (state : AccMap) (l : Letter) :
    ∀ (ng : List Note) (obj : AccMap),
      (ng.foldl (fun obj note =>
          if state note.label.letter = some note.label.accidental then obj
          else fun l' => if l' = note.label.letter then
            some note.label.accidental else obj l') obj) l
        = match lastDiffering state l ng with
          | some a => some a
          | none => obj l := by
  intro ng
  induction ng with
  | nil => intro obj; rfl
  | cons n t ih =>
    intro obj
    rw [List.foldl_cons, ih]
    cases hld : lastDiffering state l t with
    | some a => simp [lastDiffering, hld]
    | none =>
      simp only [lastDiffering, hld]
      split_ifs with h1 h2 h3
      · exact absurd (h2.1 ▸ h1) h2.2
      · rfl
      · show (if l = n.label.letter then some n.label.accidental else obj l)
            = some n.label.accidental
        exact if_pos h3.1.symm
      · have hL : ¬ l = n.label.letter := by
          intro h
          exact h3 ⟨h.symm, by rw [h]; exact h1⟩
        show (if l = n.label.letter then some n.label.accidental else obj l)
            = obj l
        exact if_neg hL

theorem chordStateUpdate_eq (noteGroup : List Note) (state : AccMap)
    (l : Letter) :
    chordStateUpdate noteGroup state l
      = match lastDiffering state l noteGroup with
        | some a => some a
        | none => state l := by
  have h : getDisplayedAccidentals noteGroup state l
      = lastDiffering state l noteGroup := by
    rw [getDisplayedAccidentals, getDisplayedAccidentals_aux]
    cases lastDiffering state l noteGroup <;> rfl
  rw [chordStateUpdate, mergeAcc, h]

/-- **C3 counterexample**: the claim's "last write wins" clause fails on the
code.  With the measure state holding F ↦ SHARP, the chord
[F-NATURAL, F-SHARP] contains two notes with the same letter and different
accidentals, yet the post-chord state for F is NATURAL — the accidental of
the first note — not SHARP, the accidental of the last note in the chord's
sequence: the second note matches the pre-chord state, so the source's
reduce writes nothing for it and the earlier write survives the batch
update. -/
theorem c3_counterexample :
    chordStateUpdate [f4, fs4] keyFSharp Letter.F = some Accidental.NATURAL ∧
    chordStateUpdate [f4, fs4] keyFSharp Letter.F ≠ some Accidental.SHARP :=
  ⟨rfl, by decide⟩

/-- **C3 (amended)**: within one measure, every note of a chord has its
displayed accidental decided against the accidental-state map as it was
before any note of that chord was processed, and the state map is updated
only after the whole chord; when a chord contains several notes with the
same letter, the post-chord state for that letter holds the accidental of
the last such note whose accidental differs from the pre-chord state (a
note matching the pre-chord state writes nothing), and stays at the
pre-chord accidental when every such note matches it. -/
theorem c3_accidental_batching :
    (∀ (noteGroup : List Note) (rest : List Chord) (state : AccMap),
        runMeasureAccidentals (noteGroup :: rest) state
          = ((noteGroup.map (fun n => getDisplayedAccidental n.label state))
               :: (runMeasureAccidentals rest (chordStateUpdate noteGroup state)).1,
             (runMeasureAccidentals rest (chordStateUpdate noteGroup state)).2)) ∧
    (∀ (noteGroup : List Note) (state : AccMap) (l : Letter),
        chordStateUpdate noteGroup state l
          = match lastDiffering state l noteGroup with
            | some a => some a
            | none => state l) :=
  ⟨fun _ _ _ => rfl, chordStateUpdate_eq⟩

theorem closestStep_eq (useMin : Bool) (clef : Clef) (slope w slh : ℚ)
    (acc : Option ℚ) (i : ℕ) (chord : Chord) (hne : chord ≠ []) :
    closestStep useMin clef slope w slh acc i chord
      = optStep useMin acc (extremeD useMin (chord.map (fun note =>
          positionToY (getPositionByNote note clef) slh)) - slope * i * w) := by
  match chord, hne with
  | n :: t, _ => rfl

theorem closestLoop_eq_foldl (useMin : Bool) (clef : Clef) (slope w slh : ℚ) :
    ∀ (chords : List Chord) (i : ℕ) (acc : Option ℚ),
      (∀ c ∈ chords, c ≠ []) →
      closestLoop useMin clef slope w slh i chords acc
        = (adjustedHeadYs useMin clef slope w slh i chords).foldl
            (optStep useMin) acc := by
  intro chords
  induction chords with
  | nil => intro i acc _; rfl
  | cons chord rest ih =>
    intro i acc h
    rw [closestLoop, adjustedHeadYs, List.foldl_cons,
      closestStep_eq useMin clef slope w slh acc i chord (h chord (by simp))]
    exact ih (i + 1) _ (fun c hc => h c (by simp [hc]))

theorem optStep_some (useMin : Bool) (b y : ℚ) :
    optStep useMin (some b) y = some ((if useMin then min else max) b y) := by
  cases useMin
  · show (if b < y then some y else some b) = some (max b y)
    by_cases h : b < y
    · rw [if_pos h, max_eq_right h.le]
    · rw [if_neg h, max_eq_left (le_of_not_lt h)]
  · show (if y < b then some y else some b) = some (min b y)
    by_cases h : y < b
    · rw [if_pos h, min_eq_right h.le]
    · rw [if_neg h, min_eq_left (le_of_not_lt h)]

theorem foldl_optStep_some (useMin : Bool) :
    ∀ (ys : List ℚ) (b : ℚ),
      ys.foldl (optStep useMin) (some b)
        = some (ys.foldl (if useMin then min else max) b) := by
  intro ys
  induction ys with
  | nil => intro b; rfl
  | cons y t ih =>
    intro b
    rw [List.foldl_cons, List.foldl_cons, optStep_some]
    exact ih _

theorem foldl_optStep_none (useMin : Bool) (h : ℚ) (t : List ℚ) :
    (h :: t).foldl (optStep useMin) none = some (extremeD useMin (h :: t)) := by
  rw [List.foldl_cons]
  show t.foldl (optStep useMin) (some h) = _
  rw [foldl_optStep_some]
  rfl

theorem closestLoop_some (useMin : Bool) (clef : Clef) (slope w slh : ℚ)
    (chords : List Chord) (hne : ∀ c ∈ chords, c ≠ [])
    (hnonempty : chords ≠ []) :
    closestLoop useMin clef slope w slh 0 chords none
      = some (extremeD useMin (adjustedHeadYs useMin clef slope w slh 0 chords)) := by
  rw [closestLoop_eq_foldl useMin clef slope w slh chords 0 none hne]
  match chords, hnonempty with
  | chord :: rest, _ =>
    rw [adjustedHeadYs]
    exact foldl_optStep_none _ _ _

/-- `getBeamLine` on a group of at least two chords, with its locals folded
into `sAbove`/`dSlope`/`closestLoop`. -/
theorem getBeamLine_unfold (beamGroup : List Chord) (clef : Clef)
    (startingX noteWidth staffLineHeight : ℚ)
    (hlen : ¬ beamGroup.length ≤ 1) :
    getBeamLine beamGroup clef startingX noteWidth staffLineHeight
      = (closestLoop (sAbove beamGroup clef) clef (dSlope beamGroup) noteWidth
            staffLineHeight 0 beamGroup none).map
          (fun cy =>
            { slope := dSlope beamGroup
              firstY := cy - dSlope beamGroup * startingX
                + (if sAbove beamGroup clef then -2 else 2) * staffLineHeight
              isAbove := sAbove beamGroup clef }) := by
  rw [getBeamLine, if_neg hlen]
  rfl

theorem getBeamLine_slope (beamGroup : List Chord) (clef : Clef)
    (startingX noteWidth staffLineHeight : ℚ) (bl : BeamLine)
    (heq : getBeamLine beamGroup clef startingX noteWidth staffLineHeight
      = some bl) :
    bl.slope = dSlope beamGroup := by
  by_cases hlen : beamGroup.length ≤ 1
  · rw [getBeamLine, if_pos hlen] at heq
    exact absurd heq (by simp)
  · rw [getBeamLine_unfold beamGroup clef startingX noteWidth staffLineHeight
      hlen] at heq
    obtain ⟨cy, -, hbl⟩ := Option.map_eq_some'.1 heq
    rw [← hbl]

theorem getBeamLine_some (beamGroup : List Chord) (clef : Clef)
    (startingX noteWidth staffLineHeight : ℚ)
    (hlen : ¬ beamGroup.length ≤ 1) (hne : ∀ c ∈ beamGroup, c ≠ []) :
    getBeamLine beamGroup clef startingX noteWidth staffLineHeight
      = some
        { slope := dSlope beamGroup
          firstY := extremeD (sAbove beamGroup clef)
              (adjustedHeadYs (sAbove beamGroup clef) clef (dSlope beamGroup)
                noteWidth staffLineHeight 0 beamGroup)
            - dSlope beamGroup * startingX
            + (if sAbove beamGroup clef then -2 else 2) * staffLineHeight
          isAbove := sAbove beamGroup clef } := by
  have hbgne : beamGroup ≠ [] := by
    intro h
    exact hlen (by simp [h])
  rw [getBeamLine_unfold beamGroup clef startingX noteWidth staffLineHeight hlen,
    closestLoop_some _ _ _ _ _ beamGroup hne hbgne]
  rfl

theorem foldl_delta_sum (m : ℚ) :
    ∀ (l : List ℚ) (a : ℚ),
      l.foldl (fun delta pitch => delta + pitch - m) a
        = a + (l.map (fun p => p - m)).sum := by
  intro l
  induction l with
  | nil => intro a; simp
  | cons p t ih =>
    intro a
    rw [List.foldl_cons, ih, List.map_cons, List.sum_cons]
    ring

theorem averageSlope_pair (a b : ℚ) : averageSlope [a, b] = b - a := by
  simp [averageSlope, average]

/-- **C8**: for every beam group the solver accepts, the displayed beam slope
is exactly 0 when the average of consecutive average-pitch differences is 0,
exactly +0.20 (= 1/5) when that average slope is positive and exactly −0.20
when it is negative; in particular any 2-chord group whose chords have equal
average pitches yields a horizontal beam. -/
theorem c8_displayed_slope (beamGroup : List Chord) (clef : Clef)
    (startingX noteWidth staffLineHeight : ℚ) (bl : BeamLine)
    (heq : getBeamLine beamGroup clef startingX noteWidth staffLineHeight
      = some bl) :
    bl.slope
      = (if averageSlope (beamGroup.map (fun chord =>
            average (chord.map Note.pitch))) = 0 then 0
         else if 0 < averageSlope (beamGroup.map (fun chord =>
            average (chord.map Note.pitch))) then 1/5
         else -(1/5)) ∧
    (∀ c₁ c₂ : Chord, getAveragePitch c₁ = getAveragePitch c₂ →
      ∀ bl' : BeamLine,
        getBeamLine [c₁, c₂] clef startingX noteWidth staffLineHeight
          = some bl' → bl'.slope = 0) := by
  constructor
  · rw [getBeamLine_slope beamGroup clef startingX noteWidth staffLineHeight
      bl heq]
    rw [dSlope]
    split_ifs <;> norm_num [BEAM_SLOPE]
  · intro c₁ c₂ hpq bl' heq'
    rw [getBeamLine_slope [c₁, c₂] clef startingX noteWidth staffLineHeight
      bl' heq']
    rw [dSlope]
    have hz : averageSlope ([c₁, c₂].map (fun chord =>
        average (chord.map Note.pitch))) = 0 := by
      rw [List.map_cons, List.map_cons, List.map_nil, averageSlope_pair]
      show getAveragePitch c₂ - getAveragePitch c₁ = 0
      rw [hpq, sub_self]
    rw [if_pos hz]

theorem c8_witness :
    ((⟨1/5, 17/5, true⟩ : BeamLine)).slope
      = (if averageSlope ([[en 60], [en 62]].map (fun chord =>
            average (chord.map Note.pitch))) = 0 then 0
         else if 0 < averageSlope ([[en 60], [en 62]].map (fun chord =>
            average (chord.map Note.pitch))) then 1/5
         else -(1/5)) ∧
    (∀ c₁ c₂ : Chord, getAveragePitch c₁ = getAveragePitch c₂ →
      ∀ bl' : BeamLine, getBeamLine [c₁, c₂] Clef.TREBLE 10 3 2 = some bl' →
        bl'.slope = 0) :=
  c8_displayed_slope [[en 60], [en 62]] Clef.TREBLE 10 3 2 ⟨1/5, 17/5, true⟩
    (by
      have h1 : getPositionByNote (en 60) Clef.TREBLE = 0 := by decide
      have h2 : getPositionByNote (en 62) Clef.TREBLE = 0 := by decide
      have p1 : (en 60).pitch = 60 := rfl
      have p2 : (en 62).pitch = 62 := rfl
      norm_num [getBeamLine, closestLoop, closestStep, jsExtreme, averageSlope,
        average, positionToY, BEAM_SLOPE, h1, h2, p1, p2])

/-- **C2**: for every beam group the solver accepts (with non-empty chords),
the beam is above the notes iff the sum over the chords of (average pitch −
middle-line pitch, 71 for treble and 50 for bass) is negative, otherwise
below; and at `x = startingX` the line's y equals the extreme
slope-adjusted note-head y (minimum over chords of each chord's closest head
y minus `displayedSlope * i * noteWidth` if above, maximum if below) moved
exactly 2 staff-line-heights further from the notes (smaller if above,
larger if below). -/
theorem c2_beam_side_and_anchor (beamGroup : List Chord) (clef : Clef)
    (startingX noteWidth staffLineHeight : ℚ) (bl : BeamLine)
    (hne : ∀ c ∈ beamGroup, c ≠ [])
    (heq : getBeamLine beamGroup clef startingX noteWidth staffLineHeight
      = some bl) :
    (bl.isAbove = true ↔
      (beamGroup.map (fun chord => average (chord.map Note.pitch)
          - (if clef = Clef.TREBLE then 71 else 50))).sum < 0) ∧
    bl.getY startingX
      = extremeD bl.isAbove
          (adjustedHeadYs bl.isAbove clef bl.slope noteWidth staffLineHeight
            0 beamGroup)
        + (if bl.isAbove then -2 else 2) * staffLineHeight := by
  by_cases hlen : beamGroup.length ≤ 1
  · rw [getBeamLine, if_pos hlen] at heq
    exact absurd heq (by simp)
  · rw [getBeamLine_some beamGroup clef startingX noteWidth staffLineHeight
      hlen hne] at heq
    have hbl := Option.some.inj heq
    subst hbl
    constructor
    · show sAbove beamGroup clef = true ↔ _
      rw [sAbove, decide_eq_true_iff]
      rw [foldl_delta_sum (if clef = Clef.TREBLE then 71 else 50)
        (beamGroup.map (fun chord => average (chord.map Note.pitch))) 0]
      rw [zero_add, List.map_map]
      rfl
    · show BeamLine.getY _ startingX = _
      rw [BeamLine.getY]
      ring

theorem c2_witness :
    ((⟨1/5, 17/5, true⟩ : BeamLine).isAbove = true ↔
      ([[en 60], [en 62]].map (fun chord => average (chord.map Note.pitch)
          - (if Clef.TREBLE = Clef.TREBLE then 71 else 50))).sum < 0) ∧
    (⟨1/5, 17/5, true⟩ : BeamLine).getY 10
      = extremeD (⟨1/5, 17/5, true⟩ : BeamLine).isAbove
          (adjustedHeadYs (⟨1/5, 17/5, true⟩ : BeamLine).isAbove Clef.TREBLE
            (⟨1/5, 17/5, true⟩ : BeamLine).slope 3 2 0 [[en 60], [en 62]])
        + (if (⟨1/5, 17/5, true⟩ : BeamLine).isAbove then -2 else 2) * 2 :=
  c2_beam_side_and_anchor [[en 60], [en 62]] Clef.TREBLE 10 3 2
    ⟨1/5, 17/5, true⟩
    (by intro c hc; simp at hc; rcases hc with rfl | rfl <;> simp)
    (by
      have h1 : getPositionByNote (en 60) Clef.TREBLE = 0 := by decide
      have h2 : getPositionByNote (en 62) Clef.TREBLE = 0 := by decide
      have p1 : (en 60).pitch = 60 := rfl
      have p2 : (en 62).pitch = 62 := rfl
      norm_num [getBeamLine, closestLoop, closestStep, jsExtreme, averageSlope,
        average, positionToY, BEAM_SLOPE, h1, h2, p1, p2])

theorem grandStaffLayout_cursors_eq (staffHeight : ℚ) :
    ∀ (music : List LabeledMusic) (st : ℚ × ℚ × List ℚ), st.1 = st.2.1 →
      (music.foldl (grandStaffStep staffHeight) st).1
        = (music.foldl (grandStaffStep staffHeight) st).2.1 := by
  intro music
  induction music with
  | nil => intro st h; exact h
  | cons m t ih => intro st _; exact ih _ rfl

/-- **C9**: after laying out each measure, the bar line is placed at the
maximum of the treble and bass x-cursors, and both cursors are then set to
that bar position plus the fixed gap 50; hence the treble and bass cursors
coincide at every bar line. -/
theorem c9_bar_lines_align (staffHeight : ℚ) (music : List LabeledMusic) :
    (grandStaffLayout staffHeight music).1
      = (grandStaffLayout staffHeight music).2.1 ∧
    ∀ m : LabeledMusic,
      grandStaffLayout staffHeight (music ++ [m])
        = (max (createClefNotesX staffHeight m.trebleClef
                  (grandStaffLayout staffHeight music).1)
               (createClefNotesX staffHeight m.bassClef
                  (grandStaffLayout staffHeight music).2.1) + 50,
           max (createClefNotesX staffHeight m.trebleClef
                  (grandStaffLayout staffHeight music).1)
               (createClefNotesX staffHeight m.bassClef
                  (grandStaffLayout staffHeight music).2.1) + 50,
           (grandStaffLayout staffHeight music).2.2
             ++ [max (createClefNotesX staffHeight m.trebleClef
                       (grandStaffLayout staffHeight music).1)
                     (createClefNotesX staffHeight m.bassClef
                       (grandStaffLayout staffHeight music).2.1)]) := by
  constructor
  · exact grandStaffLayout_cursors_eq staffHeight music (40, 40, []) rfl
  · intro m
    rw [grandStaffLayout, grandStaffLayout, List.foldl_append]
    rfl
